import Mathlib

/-!
Verification of the deduplication-and-ranking core of
`spotify_popularity_playlist/popularity_playlist.py`.

The shallow embedding below translates the pure core of the Python module:

* `Album` models the record dictionaries consumed by the engine (only the
  three fields the engine reads: `id`, `name`, `popularity`);
* `AlbumMatch` is the named tuple from `spotify_types.py`;
* a `Scorer` is an arbitrary integer-valued string-similarity function, the
  engine treats it as opaque (the composition of `process.extract`'s string
  processing and the `fuzzywuzzy` ratio is absorbed into this function);
* Python dicts built by comprehension are modelled as association lists in
  first-insertion order with value overwrite on key collision (`dictInsert`);
  a keyed lookup into `{album["id"]: album for album in albums}` therefore
  returns the last record carrying the requested id (`album_id_dict_get`);
* Python's `sorted(key=..., reverse=True)` is a stable descending sort; it is
  embedded as `List.insertionSort` with the relation
  `fun a b => b.popularity ≤ a.popularity`, which is the unique stable sort
  for that comparator;
* the generator `chunks` iterates `range(0, len(list_), chunk_size)`:
  a zero step makes `range` raise `ValueError`, a negative step (from 0
  towards a non-negative stop) yields no indices at all, and a positive step
  yields the indices `0, n, 2n, ...`, i.e. `ceil(len / n)` of them.
-/

open List

/-- Record consumed by the engine: the three album/track fields it reads. -/
structure Album where
  id : String
  name : String
  popularity : Int
deriving DecidableEq

/-- The `AlbumMatch` named tuple from `spotify_types.py`. -/
structure AlbumMatch where
  album_name : String
  score : Int
  album_id : String
deriving DecidableEq

/-- A scorer: integer similarity score of a query string against a candidate. -/
abbrev Scorer := String → String → Int

/-- Python dict insertion on an association list: overwrite the value in place
on key collision, otherwise append the new binding at the end (dicts preserve
first-insertion order). -/
def dictInsert (k v : String) : List (String × String) → List (String × String)
  | [] => [(k, v)]
  | p :: rest => if p.1 = k then (k, v) :: rest else p :: dictInsert k v rest

/-- The dict comprehension `{album["id"]: album["name"] for album in albums}`. -/
def dupe_album_id_names_dict (albums : List Album) : List (String × String) :=
  albums.foldl (fun d a => dictInsert a.id a.name d) []

/-- Lookup `album_id_dict[album_id]` where
`album_id_dict = {album["id"]: album.copy() for album in albums}`: a dict
comprehension keeps, for each key, the value of the last item producing it. -/
def album_id_dict_get (albums : List Album) (album_id : String) : Option Album :=
  (albums.filter (fun a => a.id == album_id)).getLast?

/-- The list comprehension building `album_matches` from
`process.extract(query=item["name"], choices=dupe_album_id_names_dict,
limit=None, scorer=scorer)`: one `AlbumMatch` per dict entry, carrying the
candidate name, its score against the query, and the candidate id.  (The
engine only inspects the length of this list and membership of ids in it, so
the score-descending order `process.extract` returns in is irrelevant and the
dict order is used here.) -/
def album_matches (scorer : Scorer) (choices : List (String × String))
    (query : String) : List AlbumMatch :=
  choices.map (fun c => ⟨c.2, scorer query c.2, c.1⟩)

/-- The comprehension `filtered_album_matches`: matches whose
`score > threshold`. -/
def filtered_album_matches (scorer : Scorer) (threshold : Int)
    (choices : List (String × String)) (query : String) : List AlbumMatch :=
  (album_matches scorer choices query).filter (fun m => threshold < m.score)

/-- The keep test of one loop iteration:
`len(filtered_album_matches) == 1 or not [i.album_id for i in
filtered_album_matches if i.album_id in extractor_album_ids]`. -/
def dedupe_keep (scorer : Scorer) (threshold : Int)
    (choices : List (String × String)) (extractor_album_ids : List String)
    (item : Album) : Prop :=
  (filtered_album_matches scorer threshold choices item.name).length = 1 ∨
    (filtered_album_matches scorer threshold choices item.name).filter
      (fun m => m.album_id ∈ extractor_album_ids) = []

instance (scorer : Scorer) (threshold : Int) (choices : List (String × String))
    (extractor_album_ids : List String) (item : Album) :
    Decidable (dedupe_keep scorer threshold choices extractor_album_ids item) := by
  unfold dedupe_keep
  infer_instance

/-- One iteration of the engine's `for item in albums` loop: append
`item["id"]` to `extractor_album_ids` when the keep test holds. -/
def dedupe_step (scorer : Scorer) (threshold : Int)
    (choices : List (String × String)) (extractor_album_ids : List String)
    (item : Album) : List String :=
  if dedupe_keep scorer threshold choices extractor_album_ids item
  then extractor_album_ids ++ [item.id]
  else extractor_album_ids

/-- The final value of the `extractor_album_ids` accumulator after the loop. -/
def extractor_album_ids (scorer : Scorer) (threshold : Int)
    (albums : List Album) : List String :=
  albums.foldl (dedupe_step scorer threshold (dupe_album_id_names_dict albums)) []

/-- Partial state of the engine's loop: the value of the `extractor_album_ids`
accumulator after the first `k` iterations (the candidate dict is still built
from the whole input). -/
def extractor_album_ids_upto (scorer : Scorer) (threshold : Int)
    (albums : List Album) (k : Nat) : List String :=
  (albums.take k).foldl (dedupe_step scorer threshold (dupe_album_id_names_dict albums)) []

/-- Shallow embedding of `deduplicate_by_name_and_add_popularity`: run the
loop, and if the number of extracted ids differs from the input length,
look the kept records up by id and sort them stably by popularity descending;
otherwise return the original list unchanged. -/
def deduplicate_by_name_and_add_popularity (albums : List Album)
    (threshold : Int) (scorer : Scorer) : List Album :=
  let extracted := extractor_album_ids scorer threshold albums
  if extracted.length ≠ albums.length then
    List.insertionSort (fun a b => b.popularity ≤ a.popularity)
      (extracted.filterMap (album_id_dict_get albums))
  else albums

/-- Error raised by Python's `range` when the step is zero. -/
inductive ChunkSizeError where
  | valueError : ChunkSizeError
deriving DecidableEq

/-- Shallow embedding of the generator `chunks(list_, chunk_size)`, which
yields `list_[idx : idx + chunk_size]` for `idx in range(0, len(list_),
chunk_size)`.  `range` with step `0` raises `ValueError`; with a negative
step and a non-negative stop it yields no indices; with a positive step `n`
it yields the `⌈len / n⌉` indices `0, n, 2n, ...`. -/
def chunks (list_ : List α) (chunk_size : Int) : Except ChunkSizeError (List (List α)) :=
  if chunk_size = 0 then .error .valueError
  else if chunk_size < 0 then .ok []
  else
    .ok ((List.range ((list_.length + chunk_size.toNat - 1) / chunk_size.toNat)).map
      (fun idx => (list_.drop (idx * chunk_size.toNat)).take chunk_size.toNat))

/-! ### Helper lemmas about the chunker -/

theorem chunks_ceil_mul_ge (m k : Nat) (hk : 0 < k) : m ≤ (m + k - 1) / k * k := by
  have hd := Nat.div_add_mod (m + k - 1) k
  have hr : (m + k - 1) % k < k := Nat.mod_lt _ hk
  have hc : k * ((m + k - 1) / k) = (m + k - 1) / k * k := Nat.mul_comm _ _
  omega

theorem chunks_join_take (l : List α) (k : Nat) : ∀ c : Nat,
    ((List.range c).map (fun idx => (l.drop (idx * k)).take k)).flatten = l.take (c * k) := by
  intro c
  induction c with
  | zero => simp
  | succ c ih =>
    have hr : List.range (c + 1) = List.range c ++ [c] := by
      simpa using List.range_succ (n := c)
    rw [hr, List.map_append, List.flatten_append, ih]
    simp only [List.map_cons, List.map_nil, List.flatten_cons, List.flatten_nil, List.append_nil]
    rw [← List.take_add, Nat.succ_mul]

theorem chunks_mul_le (m k : Nat) : (m + k - 1) / k * k ≤ m + k - 1 :=
  Nat.div_mul_le_self _ _

/-- C6: for every input list and every positive chunk size, the chunker
succeeds and yields chunks of length exactly `chunk_size` except possibly the
last, each nonempty and of length at most `chunk_size`, whose concatenation
is the input list (total length and order preserved); the empty input yields
zero chunks, and a 105-element input with chunk size 50 yields chunk sizes
`[50, 50, 5]`. -/
theorem chunks_spec_C6 :
    (∀ (α : Type) (l : List α) (n : Int), 0 < n →
      ∃ cs, chunks l n = Except.ok cs ∧
        cs.flatten = l ∧
        (∀ c ∈ cs.dropLast, c.length = n.toNat) ∧
        (∀ c ∈ cs, c.length ≤ n.toNat ∧ c ≠ []) ∧
        (l = [] → cs = [])) ∧
    (chunks (List.range 105) 50).map (fun cs => cs.map List.length) =
      Except.ok [50, 50, 5] := by
  constructor
  · intro α l n hn
    have hn0 : ¬ n = 0 := by omega
    have hn1 : ¬ n < 0 := by omega
    have hk : 0 < n.toNat := by omega
    have hch : chunks l n = Except.ok
        ((List.range ((l.length + n.toNat - 1) / n.toNat)).map
          (fun idx => (l.drop (idx * n.toNat)).take n.toNat)) := by
      simp [chunks, hn0, hn1]
    refine ⟨_, hch, ?_, ?_, ?_, ?_⟩
    · rw [chunks_join_take]
      exact List.take_of_length_le (chunks_ceil_mul_ge l.length n.toNat hk)
    · intro c hc
      cases hcc : (l.length + n.toNat - 1) / n.toNat with
      | zero => rw [hcc] at hc; simp at hc
      | succ c0 =>
        rw [hcc] at hc
        have hr : List.range (c0 + 1) = List.range c0 ++ [c0] := by
          simpa using List.range_succ (n := c0)
        rw [hr, List.map_append] at hc
        simp only [List.map_cons, List.map_nil] at hc
        rw [List.dropLast_concat] at hc
        obtain ⟨idx, hidx, rfl⟩ := List.mem_map.mp hc
        have hidx2 : idx < c0 := List.mem_range.mp hidx
        have hA : ((l.length + n.toNat - 1) / n.toNat) * n.toNat ≤ l.length + n.toNat - 1 :=
          Nat.div_mul_le_self _ _
        rw [hcc] at hA
        have hsm : (c0 + 1) * n.toNat = c0 * n.toNat + n.toNat := Nat.succ_mul _ _
        have hmono : (idx + 1) * n.toNat ≤ c0 * n.toNat := Nat.mul_le_mul_right _ hidx2
        have hsm2 : (idx + 1) * n.toNat = idx * n.toNat + n.toNat := Nat.succ_mul _ _
        rw [List.length_take, List.length_drop]
        omega
    · intro c hc
      obtain ⟨idx, hidx, rfl⟩ := List.mem_map.mp hc
      have hidx2 : idx < (l.length + n.toNat - 1) / n.toNat := List.mem_range.mp hidx
      have hA : ((l.length + n.toNat - 1) / n.toNat) * n.toNat ≤ l.length + n.toNat - 1 :=
        Nat.div_mul_le_self _ _
      have hmono : (idx + 1) * n.toNat ≤ ((l.length + n.toNat - 1) / n.toNat) * n.toNat :=
        Nat.mul_le_mul_right _ hidx2
      have hsm2 : (idx + 1) * n.toNat = idx * n.toNat + n.toNat := Nat.succ_mul _ _
      constructor
      · rw [List.length_take]; exact Nat.min_le_left _ _
      · intro hnil
        have hzero : ((l.drop (idx * n.toNat)).take n.toNat).length = 0 := by rw [hnil]; rfl
        rw [List.length_take, List.length_drop] at hzero
        omega
    · intro hl
      subst hl
      simp only [List.length_nil, Nat.zero_add]
      have hdz : (n.toNat - 1) / n.toNat = 0 := Nat.div_eq_of_lt (by omega)
      rw [hdz]
      rfl
  · rfl

/-- Witness for C6 at the concrete input `[1, 2, 3, 4, 5]` with chunk size 2. -/
theorem chunks_spec_C6_witness :
    (0:Int) < 2 ∧
    ∃ cs, chunks ([1, 2, 3, 4, 5] : List Nat) 2 = Except.ok cs ∧
      cs.flatten = [1, 2, 3, 4, 5] ∧
      (∀ c ∈ cs.dropLast, c.length = (2:Int).toNat) ∧
      (∀ c ∈ cs, c.length ≤ (2:Int).toNat ∧ c ≠ []) ∧
      (([1, 2, 3, 4, 5] : List Nat) = [] → cs = []) :=
  ⟨by decide, chunks_spec_C6.1 Nat [1, 2, 3, 4, 5] 2 (by decide)⟩

/-- C7 counterexample: a negative chunk size is not rejected with an error;
the reference code silently yields zero chunks (the `range` over a negative
step is empty), so the claim that every chunk size ≤ 0 raises an explicit
`InvalidArgument` error fails at chunk size `-1`. -/
theorem chunks_nonpositive_C7_cex :
    chunks ([1, 2, 3] : List Nat) (-1) = Except.ok [] := rfl

/-- C7 (amended): a chunk size of exactly 0 is rejected with an explicit
error (Python's `range` raises `ValueError`), while a negative chunk size is
accepted and silently produces zero chunks; the explicit `InvalidArgument`
rejection of every non-positive size is a requirement on the rewrite, not a
behavior of the reference implementation. -/
theorem chunks_nonpositive_C7 (α : Type) (l : List α) (n : Int) :
    (n = 0 → chunks l n = Except.error ChunkSizeError.valueError) ∧
    (n < 0 → chunks l n = Except.ok []) := by
  constructor
  · intro h; simp [chunks, h]
  · intro h
    have h0 : ¬ n = 0 := by omega
    simp [chunks, h0, h]

/-- Witness for C7 (amended) at chunk sizes 0 and -2. -/
theorem chunks_nonpositive_C7_witness :
    chunks ([1, 2, 3] : List Nat) 0 = Except.error ChunkSizeError.valueError ∧
    chunks ([4, 5] : List Nat) (-2) = Except.ok [] :=
  ⟨(chunks_nonpositive_C7 Nat [1, 2, 3] 0).1 rfl,
   (chunks_nonpositive_C7 Nat [4, 5] (-2)).2 (by decide)⟩

/-- C8: for the empty input list and any threshold and scorer, the engine
returns the empty list (and, being a total function, raises no error). -/
theorem engine_empty_C8 (threshold : Int) (scorer : Scorer) :
    deduplicate_by_name_and_add_popularity [] threshold scorer = [] := rfl

/-! ### Helper lemmas about the engine's loop accumulator -/

theorem foldl_dedupe_append (scorer : Scorer) (threshold : Int)
    (choices : List (String × String)) : ∀ (l : List Album) (e : List String),
    ∃ e2, l.foldl (dedupe_step scorer threshold choices) e = e ++ e2 ∧
      e2 <+ l.map Album.id := by
  intro l
  induction l with
  | nil => intro e; exact ⟨[], by simp, by simp⟩
  | cons a l ih =>
    intro e
    by_cases hka : dedupe_keep scorer threshold choices e a
    · obtain ⟨e2, heq, hsub⟩ := ih (e ++ [a.id])
      refine ⟨a.id :: e2, ?_, ?_⟩
      · simp only [List.foldl_cons, dedupe_step, if_pos hka] at heq ⊢
        rw [heq, List.append_assoc]
        rfl
      · simpa [List.map_cons] using List.Sublist.cons₂ a.id hsub
    · obtain ⟨e2, heq, hsub⟩ := ih e
      refine ⟨e2, ?_, ?_⟩
      · simp only [List.foldl_cons, dedupe_step, if_neg hka]
        exact heq
      · simpa [List.map_cons] using List.Sublist.cons a.id hsub

theorem extractor_sublist (scorer : Scorer) (threshold : Int) (albums : List Album) :
    extractor_album_ids scorer threshold albums <+ albums.map Album.id := by
  obtain ⟨e2, heq, hsub⟩ :=
    foldl_dedupe_append scorer threshold (dupe_album_id_names_dict albums) albums []
  rw [extractor_album_ids, heq]
  simpa using hsub

theorem extractor_length_le (scorer : Scorer) (threshold : Int) (albums : List Album) :
    (extractor_album_ids scorer threshold albums).length ≤ albums.length := by
  have h := (extractor_sublist scorer threshold albums).length_le
  simpa using h

theorem extractor_nodup (scorer : Scorer) (threshold : Int) (albums : List Album)
    (hnd : (albums.map Album.id).Nodup) :
    (extractor_album_ids scorer threshold albums).Nodup :=
  hnd.sublist (extractor_sublist scorer threshold albums)

theorem foldl_dedupe_all_kept (scorer : Scorer) (threshold : Int)
    (choices : List (String × String)) : ∀ (l : List Album),
    (∀ item ∈ l, (filtered_album_matches scorer threshold choices item.name).length ≤ 1) →
    ∀ e : List String,
      (l.foldl (dedupe_step scorer threshold choices) e).length = e.length + l.length := by
  intro l
  induction l with
  | nil => intro _ e; simp
  | cons a l ih =>
    intro hf e
    have ha := hf a (List.mem_cons_self a l)
    have hka : dedupe_keep scorer threshold choices e a := by
      rcases Nat.lt_or_ge (filtered_album_matches scorer threshold choices a.name).length 1
        with h1 | h1
      · right
        have hz : filtered_album_matches scorer threshold choices a.name = [] :=
          List.length_eq_zero.mp (by omega)
        rw [hz]
        rfl
      · left
        omega
    simp only [List.foldl_cons, dedupe_step, if_pos hka]
    rw [ih (fun item hm => hf item (List.mem_cons_of_mem a hm)) (e ++ [a.id])]
    simp only [List.length_append, List.length_cons, List.length_singleton, List.length_nil]
    omega

/-! ### Helper lemmas about the modelled Python dicts -/

theorem mem_dictInsert (k v : String) (p : String × String) : ∀ d : List (String × String),
    p ∈ dictInsert k v d → p = (k, v) ∨ p ∈ d := by
  intro d
  induction d with
  | nil =>
    intro h
    simp [dictInsert] at h
    left
    exact h
  | cons q d ih =>
    intro h
    rw [dictInsert] at h
    by_cases hq : q.1 = k
    · rw [if_pos hq] at h
      rcases List.mem_cons.mp h with h1 | h1
      · left; exact h1
      · right; exact List.mem_cons_of_mem q h1
    · rw [if_neg hq] at h
      rcases List.mem_cons.mp h with h1 | h1
      · right; exact h1 ▸ List.mem_cons_self q d
      · rcases ih h1 with h2 | h2
        · left; exact h2
        · right; exact List.mem_cons_of_mem q h2

theorem mem_keys_dictInsert (k v x : String) : ∀ d : List (String × String),
    (x ∈ (dictInsert k v d).map Prod.fst ↔ x = k ∨ x ∈ d.map Prod.fst) := by
  intro d
  induction d with
  | nil => simp [dictInsert]
  | cons q d ih =>
    rw [dictInsert]
    by_cases hq : q.1 = k
    · rw [if_pos hq]
      simp only [List.map_cons, List.mem_cons, hq]
      tauto
    · rw [if_neg hq]
      simp only [List.map_cons, List.mem_cons, ih]
      tauto

theorem nodup_keys_dictInsert (k v : String) : ∀ d : List (String × String),
    (d.map Prod.fst).Nodup → ((dictInsert k v d).map Prod.fst).Nodup := by
  intro d
  induction d with
  | nil => intro _; simp [dictInsert]
  | cons q d ih =>
    intro hnd
    rw [dictInsert]
    by_cases hq : q.1 = k
    · rw [if_pos hq]
      simpa [hq] using hnd
    · rw [if_neg hq]
      simp only [List.map_cons, List.nodup_cons] at hnd ⊢
      refine ⟨?_, ih hnd.2⟩
      intro hmem
      rcases (mem_keys_dictInsert k v q.1 d).mp hmem with h1 | h1
      · exact hq h1
      · exact hnd.1 h1

theorem dict_keys_nodup_aux : ∀ (l : List Album) (d : List (String × String)),
    (d.map Prod.fst).Nodup →
    ((l.foldl (fun d a => dictInsert a.id a.name d) d).map Prod.fst).Nodup := by
  intro l
  induction l with
  | nil => intro d h; exact h
  | cons a l ih => intro d h; exact ih _ (nodup_keys_dictInsert a.id a.name d h)

theorem dupe_dict_keys_nodup (albums : List Album) :
    ((dupe_album_id_names_dict albums).map Prod.fst).Nodup :=
  dict_keys_nodup_aux albums [] (by simp)

theorem dict_origin_aux : ∀ (l : List Album) (d : List (String × String)),
    ∀ p ∈ l.foldl (fun d a => dictInsert a.id a.name d) d,
      p ∈ d ∨ ∃ b ∈ l, b.id = p.1 ∧ b.name = p.2 := by
  intro l
  induction l with
  | nil => intro d p hp; left; exact hp
  | cons a l ih =>
    intro d p hp
    rcases ih (dictInsert a.id a.name d) p hp with h1 | h1
    · rcases mem_dictInsert a.id a.name p d h1 with h2 | h2
      · right; exact ⟨a, List.mem_cons_self a l, by rw [h2], by rw [h2]⟩
      · left; exact h2
    · right
      obtain ⟨b, hb, h3, h4⟩ := h1
      exact ⟨b, List.mem_cons_of_mem a hb, h3, h4⟩

theorem dupe_dict_origin (albums : List Album) :
    ∀ p ∈ dupe_album_id_names_dict albums, ∃ b ∈ albums, b.id = p.1 ∧ b.name = p.2 := by
  intro p hp
  rcases dict_origin_aux albums [] p hp with h | h
  · simp at h
  · exact h

theorem dictInsert_not_mem (k v : String) : ∀ d : List (String × String),
    k ∉ d.map Prod.fst → dictInsert k v d = d ++ [(k, v)] := by
  intro d
  induction d with
  | nil => intro _; rfl
  | cons q d ih =>
    intro h
    simp only [List.map_cons, List.mem_cons, not_or] at h
    rw [dictInsert, if_neg (fun hq => h.1 hq.symm), ih h.2]
    rfl

theorem dupe_dict_eq_map_aux : ∀ (l : List Album) (d : List (String × String)),
    (∀ a ∈ l, a.id ∉ d.map Prod.fst) → (l.map Album.id).Nodup →
    l.foldl (fun d a => dictInsert a.id a.name d) d =
      d ++ l.map (fun a => (a.id, a.name)) := by
  intro l
  induction l with
  | nil => intro d _ _; simp
  | cons a l ih =>
    intro d hdisj hnd
    simp only [List.map_cons, List.nodup_cons] at hnd
    rw [List.foldl_cons, dictInsert_not_mem a.id a.name d (hdisj a (List.mem_cons_self a l)),
      ih (d ++ [(a.id, a.name)]) ?_ hnd.2]
    · simp
    · intro b hb hmem
      rw [List.map_append] at hmem
      rcases List.mem_append.mp hmem with h1 | h1
      · exact hdisj b (List.mem_cons_of_mem a hb) h1
      · simp at h1
        exact hnd.1 (h1 ▸ List.mem_map_of_mem Album.id hb)

theorem dupe_dict_eq_map (albums : List Album) (hnd : (albums.map Album.id).Nodup) :
    dupe_album_id_names_dict albums = albums.map (fun a => (a.id, a.name)) := by
  have h := dupe_dict_eq_map_aux albums [] (by simp) hnd
  simpa [dupe_album_id_names_dict] using h

/-! ### Helper lemmas about the keyed record lookup -/

theorem album_id_dict_get_some (albums : List Album) (i : String) (b : Album)
    (h : album_id_dict_get albums i = some b) : b ∈ albums ∧ b.id = i := by
  have hb : b ∈ albums.filter (fun a => a.id == i) := List.mem_of_getLast?_eq_some h
  have hm := List.mem_filter.mp hb
  exact ⟨hm.1, by simpa using hm.2⟩

theorem album_id_dict_get_exists (albums : List Album) (i : String)
    (h : ∃ b ∈ albums, b.id = i) :
    ∃ b, album_id_dict_get albums i = some b ∧ b ∈ albums ∧ b.id = i := by
  obtain ⟨b, hb, hbi⟩ := h
  have hmem : b ∈ albums.filter (fun a => a.id == i) :=
    List.mem_filter.mpr ⟨hb, by simp [hbi]⟩
  have hne : albums.filter (fun a => a.id == i) ≠ [] := List.ne_nil_of_mem hmem
  obtain ⟨c, hc⟩ : ∃ c, (albums.filter (fun a => a.id == i)).getLast? = some c := by
    cases hf : albums.filter (fun a => a.id == i) with
    | nil => exact absurd hf hne
    | cons q t => exact ⟨(q :: t).getLast (by simp), List.getLast?_eq_getLast _ _⟩
  exact ⟨c, hc, album_id_dict_get_some albums i c hc⟩

theorem filterMap_dict_get_of_sublist : ∀ (albums : List Album),
    (albums.map Album.id).Nodup →
    ∀ E : List String, E <+ albums.map Album.id →
      E.filterMap (album_id_dict_get albums) <+ albums ∧
      (E.filterMap (album_id_dict_get albums)).map Album.id = E := by
  intro albums
  induction albums with
  | nil =>
    intro _ E hE
    have hE2 : E = [] := List.sublist_nil.mp (by simpa using hE)
    subst hE2
    simp
  | cons a rest ih =>
    intro hnd E hE
    simp only [List.map_cons, List.nodup_cons] at hnd
    have hlook_ne : ∀ i : String, i ≠ a.id →
        album_id_dict_get (a :: rest) i = album_id_dict_get rest i := by
      intro i hi
      have hfa : (a.id == i) = false := beq_eq_false_iff_ne.mpr (fun hqe => hi hqe.symm)
      simp [album_id_dict_get, List.filter_cons, hfa]
    have hlook_self : album_id_dict_get (a :: rest) a.id = some a := by
      have hfilter : rest.filter (fun x => x.id == a.id) = [] := by
        rw [List.filter_eq_nil_iff]
        intro x hx
        simp only [beq_iff_eq]
        intro hxe
        exact hnd.1 (hxe ▸ List.mem_map_of_mem Album.id hx)
      simp [album_id_dict_get, List.filter_cons, hfilter]
    rw [List.map_cons] at hE
    cases hE with
    | cons _ h2 =>
      have hcongr : E.filterMap (album_id_dict_get (a :: rest)) =
          E.filterMap (album_id_dict_get rest) := by
        apply List.filterMap_congr
        intro i hi
        exact hlook_ne i (fun he => hnd.1 (he ▸ h2.subset hi))
      obtain ⟨hsub, hmap⟩ := ih hnd.2 E h2
      rw [hcongr]
      exact ⟨List.Sublist.cons a hsub, hmap⟩
    | cons₂ _ h2 =>
      rename_i E1
      have hcongr : E1.filterMap (album_id_dict_get (a :: rest)) =
          E1.filterMap (album_id_dict_get rest) := by
        apply List.filterMap_congr
        intro i hi
        exact hlook_ne i (fun he => hnd.1 (he ▸ h2.subset hi))
      obtain ⟨hsub, hmap⟩ := ih hnd.2 E1 h2
      have hfm : (a.id :: E1).filterMap (album_id_dict_get (a :: rest)) =
          a :: E1.filterMap (album_id_dict_get rest) := by
        rw [← hcongr]
        simp [List.filterMap_cons, hlook_self]
      rw [hfm]
      exact ⟨List.Sublist.cons₂ a hsub, by simp [hmap]⟩

/-! ### Splitting the loop at a position and characterising membership -/

theorem foldl_dedupe_split (scorer : Scorer) (threshold : Int)
    (choices : List (String × String)) (l : List Album) (e : List String)
    (k : Nat) (hk : k < l.length) :
    l.foldl (dedupe_step scorer threshold choices) e =
      (l.drop (k + 1)).foldl (dedupe_step scorer threshold choices)
        (dedupe_step scorer threshold choices
          ((l.take k).foldl (dedupe_step scorer threshold choices) e)
          (l.get ⟨k, hk⟩)) := by
  have h1 : l = l.take k ++ l.get ⟨k, hk⟩ :: l.drop (k + 1) := by
    conv_lhs => rw [← List.take_append_drop k l]
    congr 1
    rw [List.drop_eq_getElem_cons hk]
    rfl
  conv_lhs => rw [h1]
  rw [List.foldl_append, List.foldl_cons]

theorem mem_foldl_dedupe_iff (scorer : Scorer) (threshold : Int)
    (choices : List (String × String)) (l : List Album)
    (hnd : (l.map Album.id).Nodup) (k : Nat) (hk : k < l.length) :
    ((l.get ⟨k, hk⟩).id ∈ l.foldl (dedupe_step scorer threshold choices) [] ↔
      dedupe_keep scorer threshold choices
        ((l.take k).foldl (dedupe_step scorer threshold choices) [])
        (l.get ⟨k, hk⟩)) := by
  have hmap : l.map Album.id =
      (l.take k).map Album.id ++ (l.get ⟨k, hk⟩).id :: (l.drop (k + 1)).map Album.id := by
    conv_lhs => rw [← List.take_append_drop k l]
    rw [List.map_append]
    congr 1
    rw [List.drop_eq_getElem_cons hk, List.map_cons]
    rfl
  rw [hmap, List.nodup_append] at hnd
  have hnotk_take : (l.get ⟨k, hk⟩).id ∉ (l.take k).map Album.id := by
    intro hmem
    exact hnd.2.2 hmem (List.mem_cons_self _ _)
  have hnotk_drop : (l.get ⟨k, hk⟩).id ∉ (l.drop (k + 1)).map Album.id :=
    (List.nodup_cons.mp hnd.2.1).1
  rw [foldl_dedupe_split scorer threshold choices l [] k hk]
  have he1sub : ∀ i ∈ (l.take k).foldl (dedupe_step scorer threshold choices) [],
      i ∈ (l.take k).map Album.id := by
    obtain ⟨e2, heq, hsub⟩ := foldl_dedupe_append scorer threshold choices (l.take k) []
    rw [heq]
    intro i hi
    exact hsub.subset (by simpa using hi)
  constructor
  · intro hmem
    by_contra hkeep
    simp only [dedupe_step, if_neg hkeep] at hmem
    obtain ⟨e2, heq, hsub⟩ := foldl_dedupe_append scorer threshold choices (l.drop (k + 1))
      ((l.take k).foldl (dedupe_step scorer threshold choices) [])
    rw [heq] at hmem
    rcases List.mem_append.mp hmem with h1 | h1
    · exact hnotk_take (he1sub _ h1)
    · exact hnotk_drop (hsub.subset h1)
  · intro hkeep
    obtain ⟨e2, heq, hsub⟩ := foldl_dedupe_append scorer threshold choices (l.drop (k + 1))
      (dedupe_step scorer threshold choices
        ((l.take k).foldl (dedupe_step scorer threshold choices) []) (l.get ⟨k, hk⟩))
    rw [heq]
    apply List.mem_append.mpr
    left
    have hstep : dedupe_step scorer threshold choices
        ((l.take k).foldl (dedupe_step scorer threshold choices) []) (l.get ⟨k, hk⟩) =
        ((l.take k).foldl (dedupe_step scorer threshold choices) []) ++
          [(l.get ⟨k, hk⟩).id] := by
      simp only [dedupe_step]
      exact if_pos hkeep
    rw [hstep]
    simp

theorem mem_extractor_iff (scorer : Scorer) (threshold : Int) (albums : List Album)
    (hnd : (albums.map Album.id).Nodup) (k : Nat) (hk : k < albums.length) :
    ((albums.get ⟨k, hk⟩).id ∈ extractor_album_ids scorer threshold albums ↔
      dedupe_keep scorer threshold (dupe_album_id_names_dict albums)
        (extractor_album_ids_upto scorer threshold albums k)
        (albums.get ⟨k, hk⟩)) :=
  mem_foldl_dedupe_iff scorer threshold (dupe_album_id_names_dict albums) albums hnd k hk

theorem mem_extractor_upto (scorer : Scorer) (threshold : Int) (albums : List Album)
    (hnd : (albums.map Album.id).Nodup) (j k : Nat) (hj : j < albums.length)
    (hjk : j < k)
    (hmem : (albums.get ⟨j, hj⟩).id ∈ extractor_album_ids scorer threshold albums) :
    (albums.get ⟨j, hj⟩).id ∈ extractor_album_ids_upto scorer threshold albums k := by
  have hkeep := (mem_extractor_iff scorer threshold albums hnd j hj).mp hmem
  have hj2 : j < (albums.take k).length := by
    rw [List.length_take]
    omega
  have hget : (albums.take k).get ⟨j, hj2⟩ = albums.get ⟨j, hj⟩ := by
    simp [List.getElem_take]
  have hnd2 : ((albums.take k).map Album.id).Nodup := by
    rw [List.map_take]
    exact hnd.sublist (List.take_sublist k (albums.map Album.id))
  have hiff := mem_foldl_dedupe_iff scorer threshold (dupe_album_id_names_dict albums)
    (albums.take k) hnd2 j hj2
  rw [List.take_take, Nat.min_eq_left (Nat.le_of_lt hjk), hget] at hiff
  exact hiff.mpr hkeep

/-! ### Positional helpers on lists -/

theorem pair_sublist_of_get_lt {α : Type} (l : List α) (i j : Nat) (hi : i < l.length)
    (hj : j < l.length) (hij : i < j) :
    [l.get ⟨i, hi⟩, l.get ⟨j, hj⟩] <+ l := by
  have hj2 : j - (i + 1) < (l.drop (i + 1)).length := by
    rw [List.length_drop]
    omega
  have h2 : (l.drop (i + 1)).get ⟨j - (i + 1), hj2⟩ = l.get ⟨j, hj⟩ := by
    simp only [List.get_eq_getElem, List.getElem_drop]
    congr 1
    omega
  have h3 : [l.get ⟨i, hi⟩, l.get ⟨j, hj⟩] <+ l.drop i := by
    rw [List.drop_eq_getElem_cons hi]
    refine List.Sublist.cons₂ _ (List.singleton_sublist.mpr ?_)
    rw [← h2]
    exact List.get_mem _ _ _
  exact h3.trans (List.drop_sublist i l)

theorem indexOf_lt_of_pair_sublist {α : Type} [DecidableEq α] :
    ∀ l : List α, l.Nodup → ∀ x y : α, [x, y] <+ l → l.indexOf x < l.indexOf y := by
  intro l
  induction l with
  | nil =>
    intro _ x y h
    exact absurd (List.sublist_nil.mp h) (by simp)
  | cons c l ih =>
    intro hnd x y h
    rw [List.nodup_cons] at hnd
    cases h with
    | cons _ h2 =>
      have hx : x ∈ l := h2.subset (by simp)
      have hy : y ∈ l := h2.subset (by simp)
      have hxc : c ≠ x := fun he => hnd.1 (by rw [he]; exact hx)
      have hyc : c ≠ y := fun he => hnd.1 (by rw [he]; exact hy)
      rw [List.indexOf_cons_ne l hxc, List.indexOf_cons_ne l hyc]
      exact Nat.succ_lt_succ (ih hnd.2 x y h2)
    | cons₂ _ h2 =>
      have hy : y ∈ l := h2.subset (by simp)
      have hyc : c ≠ y := fun he => hnd.1 (by rw [he]; exact hy)
      rw [List.indexOf_cons_self, List.indexOf_cons_ne l hyc]
      exact Nat.succ_pos _

theorem pair_sublist_of_mem {α : Type} : ∀ (l : List α) (x y : α), x ∈ l → y ∈ l → x ≠ y →
    [x, y] <+ l ∨ [y, x] <+ l := by
  intro l
  induction l with
  | nil =>
    intro x y hx _ _
    exact absurd hx (by simp)
  | cons c l ih =>
    intro x y hx hy hne
    rcases List.mem_cons.mp hx with hxc | hx2
    · subst hxc
      have hy2 : y ∈ l := (List.mem_cons.mp hy).resolve_left (fun he => hne he.symm)
      left
      exact List.Sublist.cons₂ _ (List.singleton_sublist.mpr hy2)
    · rcases List.mem_cons.mp hy with hyc | hy2
      · subst hyc
        right
        exact List.Sublist.cons₂ _ (List.singleton_sublist.mpr hx2)
      · rcases ih x y hx2 hy2 hne with h | h
        · left
          exact List.Sublist.cons c h
        · right
          exact List.Sublist.cons c h

theorem length_le_one_of_nodup_const {α : Type} (l : List α) (x : α) (hnd : l.Nodup)
    (hc : ∀ a ∈ l, a = x) : l.length ≤ 1 := by
  cases l with
  | nil => simp
  | cons a t =>
    cases t with
    | nil => simp
    | cons b t2 =>
      exfalso
      rw [List.nodup_cons] at hnd
      have hax : a = x := hc a (by simp)
      have hbx : b = x := hc b (by simp)
      exact hnd.1 (by rw [hax, ← hbx]; simp)

/-! ### Bounding the surviving matches of a query -/

theorem filtered_length_le_one (scorer : Scorer) (threshold : Int) (base : List Album)
    (item : Album)
    (hlow : ∀ p ∈ dupe_album_id_names_dict base, p.1 ≠ item.id →
      ¬ threshold < scorer item.name p.2) :
    (filtered_album_matches scorer threshold (dupe_album_id_names_dict base)
      item.name).length ≤ 1 := by
  set F := filtered_album_matches scorer threshold (dupe_album_id_names_dict base)
    item.name with hF
  have hids : ∀ m ∈ F, m.album_id = item.id := by
    intro m hm
    rw [hF, filtered_album_matches, album_matches] at hm
    have hm2 := List.mem_filter.mp hm
    obtain ⟨p, hp, hpm⟩ := List.mem_map.mp hm2.1
    by_contra hne
    have hscore : threshold < m.score := by simpa using hm2.2
    have hp1 : p.1 ≠ item.id := by
      intro he
      apply hne
      rw [← hpm]
      exact he
    apply hlow p hp hp1
    rw [← hpm] at hscore
    simpa using hscore
  have hFids : (F.map AlbumMatch.album_id).Nodup := by
    have h1 : F <+ album_matches scorer (dupe_album_id_names_dict base) item.name := by
      rw [hF, filtered_album_matches]
      exact List.filter_sublist _
    have h2 : (album_matches scorer (dupe_album_id_names_dict base)
        item.name).map AlbumMatch.album_id = (dupe_album_id_names_dict base).map Prod.fst := by
      rw [album_matches, List.map_map]
      rfl
    have h3 := h1.map AlbumMatch.album_id
    rw [h2] at h3
    exact (dupe_dict_keys_nodup base).sublist h3
  have hlen := length_le_one_of_nodup_const (F.map AlbumMatch.album_id) item.id hFids ?_
  · simpa using hlen
  · intro a ha
    obtain ⟨m, hm, hma⟩ := List.mem_map.mp ha
    rw [← hma]
    exact hids m hm

/-! ### The first-seen-wins drop rule -/

theorem dropped_of_earlier_kept (scorer : Scorer) (threshold : Int) (albums : List Album)
    (hnd : (albums.map Album.id).Nodup) (j k : Nat) (hj : j < albums.length)
    (hk : k < albums.length) (hjk : j < k)
    (hjmem : (albums.get ⟨j, hj⟩).id ∈ extractor_album_ids scorer threshold albums)
    (hsjk : threshold < scorer (albums.get ⟨k, hk⟩).name (albums.get ⟨j, hj⟩).name)
    (hskk : threshold < scorer (albums.get ⟨k, hk⟩).name (albums.get ⟨k, hk⟩).name) :
    (albums.get ⟨k, hk⟩).id ∉ extractor_album_ids scorer threshold albums := by
  intro hkmem
  have hkeep := (mem_extractor_iff scorer threshold albums hnd k hk).mp hkmem
  have hdict := dupe_dict_eq_map albums hnd
  have hpair : [((albums.get ⟨j, hj⟩).id, (albums.get ⟨j, hj⟩).name),
      ((albums.get ⟨k, hk⟩).id, (albums.get ⟨k, hk⟩).name)] <+
      albums.map (fun a => (a.id, a.name)) := by
    have hj3 : j < (albums.map (fun a => (a.id, a.name))).length := by simpa using hj
    have hk3 : k < (albums.map (fun a => (a.id, a.name))).length := by simpa using hk
    have hp := pair_sublist_of_get_lt (albums.map (fun a => (a.id, a.name))) j k hj3 hk3 hjk
    simpa using hp
  have hmatches : [(⟨(albums.get ⟨j, hj⟩).name,
        scorer (albums.get ⟨k, hk⟩).name (albums.get ⟨j, hj⟩).name,
        (albums.get ⟨j, hj⟩).id⟩ : AlbumMatch),
      ⟨(albums.get ⟨k, hk⟩).name,
        scorer (albums.get ⟨k, hk⟩).name (albums.get ⟨k, hk⟩).name,
        (albums.get ⟨k, hk⟩).id⟩] <+
      filtered_album_matches scorer threshold (dupe_album_id_names_dict albums)
        (albums.get ⟨k, hk⟩).name := by
    rw [filtered_album_matches, album_matches, hdict]
    have h1 := hpair.map
      (fun c => (⟨c.2, scorer (albums.get ⟨k, hk⟩).name c.2, c.1⟩ : AlbumMatch))
    have h2 := h1.filter (fun m => decide (threshold < m.score))
    have hsjk2 := hsjk
    have hskk2 := hskk
    simp only [List.get_eq_getElem] at hsjk2 hskk2
    simpa [List.filter_cons, hsjk2, hskk2] using h2
  rcases hkeep with h1 | h1
  · have hlen := hmatches.length_le
    rw [h1] at hlen
    simp at hlen
  · have hm1 : (⟨(albums.get ⟨j, hj⟩).name,
        scorer (albums.get ⟨k, hk⟩).name (albums.get ⟨j, hj⟩).name,
        (albums.get ⟨j, hj⟩).id⟩ : AlbumMatch) ∈
        filtered_album_matches scorer threshold (dupe_album_id_names_dict albums)
          (albums.get ⟨k, hk⟩).name :=
      hmatches.subset (by simp)
    have hup : (albums.get ⟨j, hj⟩).id ∈
        extractor_album_ids_upto scorer threshold albums k :=
      mem_extractor_upto scorer threshold albums hnd j k hj hjk hjmem
    have hcontra : (⟨(albums.get ⟨j, hj⟩).name,
        scorer (albums.get ⟨k, hk⟩).name (albums.get ⟨j, hj⟩).name,
        (albums.get ⟨j, hj⟩).id⟩ : AlbumMatch) ∈
        (filtered_album_matches scorer threshold (dupe_album_id_names_dict albums)
          (albums.get ⟨k, hk⟩).name).filter
          (fun m => m.album_id ∈ extractor_album_ids_upto scorer threshold albums k) :=
      List.mem_filter.mpr ⟨hm1, by simpa using hup⟩
    rw [h1] at hcontra
    simp at hcontra

theorem kept_independent (scorer : Scorer) (threshold : Int) (albums : List Album)
    (hnd : (albums.map Album.id).Nodup)
    (hself : ∀ a ∈ albums, threshold < scorer a.name a.name)
    (hsymm : ∀ s1 s2 : String, scorer s1 s2 = scorer s2 s1)
    (a b : Album) (ha : a ∈ albums) (hb : b ∈ albums)
    (hamem : a.id ∈ extractor_album_ids scorer threshold albums)
    (hbmem : b.id ∈ extractor_album_ids scorer threshold albums)
    (hne : a.id ≠ b.id) :
    ¬ threshold < scorer a.name b.name := by
  intro hhigh
  obtain ⟨⟨p, hp⟩, hpa⟩ := List.mem_iff_get.mp ha
  obtain ⟨⟨q, hq⟩, hqb⟩ := List.mem_iff_get.mp hb
  rcases Nat.lt_trichotomy p q with hpq | hpq | hpq
  · refine dropped_of_earlier_kept scorer threshold albums hnd p q hp hq hpq ?_ ?_ ?_ ?_
    · rw [hpa]; exact hamem
    · rw [hpa, hqb, hsymm]; exact hhigh
    · rw [hqb]; exact hself b hb
    · rw [hqb]; exact hbmem
  · exfalso
    apply hne
    rw [← hpa, ← hqb]
    subst hpq
    rfl
  · refine dropped_of_earlier_kept scorer threshold albums hnd q p hq hp hpq ?_ ?_ ?_ ?_
    · rw [hqb]; exact hbmem
    · rw [hpa, hqb]; exact hhigh
    · rw [hpa]; exact hself a ha
    · rw [hpa]; exact hamem

/-- C1: for every input list of records, every threshold, and every scorer,
the engine's output contains only records whose identifiers occur in the
input list, and its length is at most the input length. -/
theorem engine_subset_C1 (albums : List Album) (threshold : Int) (scorer : Scorer) :
    (deduplicate_by_name_and_add_popularity albums threshold scorer).length ≤
      albums.length ∧
    ∀ b ∈ deduplicate_by_name_and_add_popularity albums threshold scorer,
      b.id ∈ albums.map Album.id := by
  simp only [deduplicate_by_name_and_add_popularity]
  by_cases hlen : (extractor_album_ids scorer threshold albums).length = albums.length
  · rw [if_neg (not_not_intro hlen)]
    exact ⟨Nat.le_refl _, fun b hb => List.mem_map_of_mem Album.id hb⟩
  · rw [if_pos hlen]
    constructor
    · rw [List.length_insertionSort]
      calc ((extractor_album_ids scorer threshold albums).filterMap
            (album_id_dict_get albums)).length
          ≤ (extractor_album_ids scorer threshold albums).length :=
            List.length_filterMap_le _ _
        _ ≤ albums.length := extractor_length_le scorer threshold albums
    · intro b hb
      rw [List.mem_insertionSort] at hb
      obtain ⟨i, hi, hsome⟩ := List.mem_filterMap.mp hb
      obtain ⟨hmem, hid⟩ := album_id_dict_get_some albums i b hsome
      exact List.mem_map_of_mem Album.id hmem

/-- C3: if every pair of records at distinct positions scores at most the
threshold in both directions, every record is kept and the engine returns
the original input list unchanged, in the original order, with no re-sort. -/
theorem engine_identity_C3 (albums : List Album) (threshold : Int) (scorer : Scorer)
    (hpw : albums.Pairwise (fun a b => scorer a.name b.name ≤ threshold ∧
      scorer b.name a.name ≤ threshold)) :
    deduplicate_by_name_and_add_popularity albums threshold scorer = albums := by
  have hsymmR : Symmetric (fun a b : Album => scorer a.name b.name ≤ threshold ∧
      scorer b.name a.name ≤ threshold) := fun a b h => ⟨h.2, h.1⟩
  have hfl : ∀ item ∈ albums,
      (filtered_album_matches scorer threshold (dupe_album_id_names_dict albums)
        item.name).length ≤ 1 := by
    intro item hitem
    apply filtered_length_le_one scorer threshold albums item
    intro p hp hne
    obtain ⟨b, hb, hbid, hbname⟩ := dupe_dict_origin albums p hp
    have hbne : b ≠ item := by
      intro he
      apply hne
      rw [← hbid, he]
    have hR := List.Pairwise.forall hsymmR hpw hitem hb (fun he => hbne he.symm)
    rw [← hbname]
    exact not_lt.mpr hR.1
  have hext : (extractor_album_ids scorer threshold albums).length = albums.length := by
    have h := foldl_dedupe_all_kept scorer threshold (dupe_album_id_names_dict albums)
      albums hfl []
    simpa [extractor_album_ids] using h
  simp only [deduplicate_by_name_and_add_popularity]
  rw [if_neg (not_not_intro hext)]

/-- Witness for C3 at a concrete two-record input with an all-zero scorer. -/
theorem engine_identity_C3_witness :
    ([(⟨"a", "x", 1⟩ : Album), ⟨"b", "y", 2⟩].Pairwise
      (fun _ _ => (0:Int) ≤ 0 ∧ (0:Int) ≤ 0)) ∧
    deduplicate_by_name_and_add_popularity [⟨"a", "x", 1⟩, ⟨"b", "y", 2⟩] 0
      (fun _ _ => 0) = [⟨"a", "x", 1⟩, ⟨"b", "y", 2⟩] :=
  ⟨by decide,
   engine_identity_C3 [⟨"a", "x", 1⟩, ⟨"b", "y", 2⟩] 0 (fun _ _ => 0) (by decide)⟩

/-- C9 counterexample: with the maximal scorer (all scores 100) and threshold
100, a single record matched against a candidate mapping containing only
itself has zero surviving matches — the strict filter drops even the maximal
self-match — so "exactly one match survives the threshold filter" fails. -/
theorem engine_self_match_C9_cex :
    filtered_album_matches (fun _ _ => 100) 100
      (dupe_album_id_names_dict [⟨"a", "n", 0⟩]) "n" = [] := by decide

/-- C9 (amended): for a single record against a candidate mapping containing
only itself, if the self-match score strictly exceeds the threshold (as with
a maximal 100 score and any threshold below 100) then exactly the self-match
survives the filter; and regardless of threshold and scorer the record is
always kept, the engine returning the singleton input unchanged. -/
theorem engine_self_match_C9 (a : Album) (threshold : Int) (scorer : Scorer) :
    (threshold < scorer a.name a.name →
      filtered_album_matches scorer threshold (dupe_album_id_names_dict [a]) a.name =
        [⟨a.name, scorer a.name a.name, a.id⟩]) ∧
    deduplicate_by_name_and_add_popularity [a] threshold scorer = [a] := by
  have hdict : dupe_album_id_names_dict [a] = [(a.id, a.name)] := rfl
  constructor
  · intro hs
    rw [filtered_album_matches, album_matches, hdict]
    simp [List.filter_cons, hs]
  · have hfl : ∀ item ∈ [a],
        (filtered_album_matches scorer threshold (dupe_album_id_names_dict [a])
          item.name).length ≤ 1 := by
      intro item hitem
      rw [List.mem_singleton] at hitem
      subst hitem
      rw [filtered_album_matches, album_matches, hdict]
      simpa using List.length_filter_le _ _
    have hext := foldl_dedupe_all_kept scorer threshold
      (dupe_album_id_names_dict [a]) [a] hfl []
    simp only [deduplicate_by_name_and_add_popularity]
    rw [if_neg (not_not_intro (by simpa [extractor_album_ids] using hext))]

/-- Witness for C9 (amended) at a concrete record, threshold 50, maximal scorer. -/
theorem engine_self_match_C9_witness :
    filtered_album_matches (fun _ _ => 100) 50
      (dupe_album_id_names_dict [⟨"a", "n", 7⟩]) "n" = [⟨"n", 100, "a"⟩] ∧
    deduplicate_by_name_and_add_popularity [⟨"a", "n", 7⟩] 50 (fun _ _ => 100) =
      [⟨"a", "n", 7⟩] :=
  ⟨(engine_self_match_C9 ⟨"a", "n", 7⟩ 50 (fun _ _ => 100)).1 (by decide),
   (engine_self_match_C9 ⟨"a", "n", 7⟩ 50 (fun _ _ => 100)).2⟩

/-- C10: for every non-empty input, every threshold, and every scorer, the
first record is always kept (nothing has been selected when it is
processed), so the output is non-empty and contains its identifier. -/
theorem engine_first_kept_C10 (albums : List Album) (threshold : Int) (scorer : Scorer)
    (h : albums ≠ []) :
    deduplicate_by_name_and_add_popularity albums threshold scorer ≠ [] ∧
    (albums.head h).id ∈
      (deduplicate_by_name_and_add_popularity albums threshold scorer).map Album.id := by
  obtain ⟨a, rest, rfl⟩ := List.exists_cons_of_ne_nil h
  have hstep : dedupe_step scorer threshold (dupe_album_id_names_dict (a :: rest)) [] a =
      [a.id] := by
    simp only [dedupe_step]
    rw [if_pos]
    · rfl
    · right
      simp [List.filter_eq_nil_iff]
  have hmem : a.id ∈ extractor_album_ids scorer threshold (a :: rest) := by
    obtain ⟨e2, heq, hsub⟩ := foldl_dedupe_append scorer threshold
      (dupe_album_id_names_dict (a :: rest)) rest [a.id]
    rw [extractor_album_ids, List.foldl_cons, hstep, heq]
    simp
  simp only [deduplicate_by_name_and_add_popularity]
  by_cases hlen :
      (extractor_album_ids scorer threshold (a :: rest)).length = (a :: rest).length
  · rw [if_neg (not_not_intro hlen)]
    exact ⟨by simp, by simp⟩
  · rw [if_pos hlen]
    obtain ⟨c, hc, hcmem, hcid⟩ :=
      album_id_dict_get_exists (a :: rest) a.id ⟨a, by simp, rfl⟩
    have hckept : c ∈ (extractor_album_ids scorer threshold (a :: rest)).filterMap
        (album_id_dict_get (a :: rest)) :=
      List.mem_filterMap.mpr ⟨a.id, hmem, hc⟩
    have hsort : c ∈ List.insertionSort (fun x y => y.popularity ≤ x.popularity)
        ((extractor_album_ids scorer threshold (a :: rest)).filterMap
          (album_id_dict_get (a :: rest))) := by
      rw [List.mem_insertionSort]
      exact hckept
    refine ⟨List.ne_nil_of_mem hsort, ?_⟩
    have hhead : (a :: rest).head h = a := rfl
    rw [hhead, ← hcid]
    exact List.mem_map_of_mem Album.id hsort

/-- Witness for C10 at a concrete singleton input. -/
theorem engine_first_kept_C10_witness :
    deduplicate_by_name_and_add_popularity [⟨"a", "n", 3⟩] 99 (fun _ _ => 0) ≠ [] ∧
    (([(⟨"a", "n", 3⟩ : Album)]).head (by decide)).id ∈
      (deduplicate_by_name_and_add_popularity [⟨"a", "n", 3⟩] 99
        (fun _ _ => 0)).map Album.id :=
  engine_first_kept_C10 [⟨"a", "n", 3⟩] 99 (fun _ _ => 0) (by decide)

/-- C2: with unique input identifiers, a record processed at position `k` is
kept (its id is in the final extracted list) if and only if, at its step,
either exactly one match survives the threshold filter or none of the
surviving match ids was already extracted; consequently a later record whose
surviving matches contain an earlier-kept record besides its own self-match
is dropped (first-seen-wins). -/
theorem engine_keep_rule_C2 (albums : List Album) (threshold : Int) (scorer : Scorer)
    (hnd : (albums.map Album.id).Nodup) :
    (∀ (k : Nat) (hk : k < albums.length),
      ((albums.get ⟨k, hk⟩).id ∈ extractor_album_ids scorer threshold albums ↔
        dedupe_keep scorer threshold (dupe_album_id_names_dict albums)
          (extractor_album_ids_upto scorer threshold albums k) (albums.get ⟨k, hk⟩))) ∧
    (∀ (j k : Nat) (hj : j < albums.length) (hk : k < albums.length), j < k →
      (albums.get ⟨j, hj⟩).id ∈ extractor_album_ids scorer threshold albums →
      threshold < scorer (albums.get ⟨k, hk⟩).name (albums.get ⟨j, hj⟩).name →
      threshold < scorer (albums.get ⟨k, hk⟩).name (albums.get ⟨k, hk⟩).name →
      (albums.get ⟨k, hk⟩).id ∉ extractor_album_ids scorer threshold albums) :=
  ⟨fun k hk => mem_extractor_iff scorer threshold albums hnd k hk,
   fun j k hj hk hjk hjmem hsjk hskk =>
     dropped_of_earlier_kept scorer threshold albums hnd j k hj hk hjk hjmem hsjk hskk⟩

/-- Witness for C2 at a concrete singleton input with the all-zero scorer. -/
theorem engine_keep_rule_C2_witness :
    (([(⟨"a", "x", 1⟩ : Album)].map Album.id).Nodup) ∧
    ((∀ (k : Nat) (hk : k < ([(⟨"a", "x", 1⟩ : Album)]).length),
      ((([(⟨"a", "x", 1⟩ : Album)]).get ⟨k, hk⟩).id ∈
          extractor_album_ids (fun _ _ => 0) 0 [⟨"a", "x", 1⟩] ↔
        dedupe_keep (fun _ _ => 0) 0 (dupe_album_id_names_dict [⟨"a", "x", 1⟩])
          (extractor_album_ids_upto (fun _ _ => 0) 0 [⟨"a", "x", 1⟩] k)
          (([(⟨"a", "x", 1⟩ : Album)]).get ⟨k, hk⟩))) ∧
     (∀ (j k : Nat) (hj : j < ([(⟨"a", "x", 1⟩ : Album)]).length)
        (hk : k < ([(⟨"a", "x", 1⟩ : Album)]).length), j < k →
        (([(⟨"a", "x", 1⟩ : Album)]).get ⟨j, hj⟩).id ∈
          extractor_album_ids (fun _ _ => 0) 0 [⟨"a", "x", 1⟩] →
        (0:Int) < 0 →
        (0:Int) < 0 →
        (([(⟨"a", "x", 1⟩ : Album)]).get ⟨k, hk⟩).id ∉
          extractor_album_ids (fun _ _ => 0) 0 [⟨"a", "x", 1⟩])) :=
  ⟨by decide, engine_keep_rule_C2 [⟨"a", "x", 1⟩] 0 (fun _ _ => 0) (by decide)⟩

/-! ### Sortedness and stability of the re-sorted branch -/

instance : IsTotal Album (fun a b => b.popularity ≤ a.popularity) :=
  ⟨fun a b => le_total b.popularity a.popularity⟩

instance : IsTrans Album (fun a b => b.popularity ≤ a.popularity) :=
  ⟨fun _ _ _ h1 h2 => le_trans h2 h1⟩

theorem extracted_records (scorer : Scorer) (threshold : Int) (albums : List Album)
    (hnd : (albums.map Album.id).Nodup) :
    ((extractor_album_ids scorer threshold albums).filterMap (album_id_dict_get albums) <+
      albums) ∧
    ((extractor_album_ids scorer threshold albums).filterMap
      (album_id_dict_get albums)).map Album.id =
      extractor_album_ids scorer threshold albums :=
  filterMap_dict_get_of_sublist albums hnd (extractor_album_ids scorer threshold albums)
    (extractor_sublist scorer threshold albums)

/-- C4: whenever the engine's output has a different length from its input
(some duplicate was dropped), the output is sorted by popularity
non-increasing, and records of equal popularity keep their relative input
order: whenever `x` appears before `y` in the output with equal popularity,
`x`'s identifier appears before `y`'s in the input.  (Input identifiers are
assumed unique, per the data model.) -/
theorem engine_sort_stable_C4 (albums : List Album) (threshold : Int) (scorer : Scorer)
    (hnd : (albums.map Album.id).Nodup)
    (hlen : (deduplicate_by_name_and_add_popularity albums threshold scorer).length ≠
      albums.length) :
    (deduplicate_by_name_and_add_popularity albums threshold scorer).Sorted
      (fun a b => b.popularity ≤ a.popularity) ∧
    (∀ x y : Album,
      [x, y] <+ deduplicate_by_name_and_add_popularity albums threshold scorer →
      x.popularity = y.popularity →
      [x.id, y.id] <+ albums.map Album.id) := by
  have hbr : (extractor_album_ids scorer threshold albums).length ≠ albums.length := by
    intro he
    apply hlen
    simp only [deduplicate_by_name_and_add_popularity]
    rw [if_neg (not_not_intro he)]
  have hout : deduplicate_by_name_and_add_popularity albums threshold scorer =
      List.insertionSort (fun a b => b.popularity ≤ a.popularity)
        ((extractor_album_ids scorer threshold albums).filterMap
          (album_id_dict_get albums)) := by
    simp only [deduplicate_by_name_and_add_popularity]
    rw [if_pos hbr]
  obtain ⟨hkept_sub, hkept_map⟩ := extracted_records scorer threshold albums hnd
  set kept := (extractor_album_ids scorer threshold albums).filterMap
    (album_id_dict_get albums) with hkeptdef
  have hEnd : (extractor_album_ids scorer threshold albums).Nodup :=
    extractor_nodup scorer threshold albums hnd
  have hknd_ids : (kept.map Album.id).Nodup := by rw [hkept_map]; exact hEnd
  have hknd : kept.Nodup := List.Nodup.of_map _ hknd_ids
  have hnd_out : (List.insertionSort (fun a b => b.popularity ≤ a.popularity) kept).Nodup :=
    (List.perm_insertionSort _ kept).nodup_iff.mpr hknd
  constructor
  · rw [hout]
    exact List.sorted_insertionSort _ kept
  · intro x y hxy hpop
    rw [hout] at hxy
    have hxmem : x ∈ kept := (List.mem_insertionSort _).mp (hxy.subset (by simp))
    have hymem : y ∈ kept := (List.mem_insertionSort _).mp (hxy.subset (by simp))
    have hxyne : x ≠ y := by
      have hpair_nd := hnd_out.sublist hxy
      simpa using hpair_nd
    rcases pair_sublist_of_mem kept x y hxmem hymem hxyne with hp | hp
    · have h1 := hp.map Album.id
      rw [hkept_map] at h1
      have h2 : [x.id, y.id] <+ extractor_album_ids scorer threshold albums := by
        simpa using h1
      exact h2.trans (extractor_sublist scorer threshold albums)
    · exfalso
      have hyx_out : [y, x] <+
          List.insertionSort (fun a b => b.popularity ≤ a.popularity) kept :=
        List.sublist_insertionSort (List.pairwise_pair.mpr (le_of_eq hpop)) hp
      have hidx1 := indexOf_lt_of_pair_sublist _ hnd_out x y hxy
      have hidx2 := indexOf_lt_of_pair_sublist _ hnd_out y x hyx_out
      omega

/-- Witness for C4: two same-named records with the maximal scorer; the
second is dropped, so the output length differs and the theorem applies. -/
theorem engine_sort_stable_C4_witness :
    (([(⟨"a", "n", 5⟩ : Album), ⟨"b", "n", 3⟩].map Album.id).Nodup) ∧
    ((deduplicate_by_name_and_add_popularity [⟨"a", "n", 5⟩, ⟨"b", "n", 3⟩] 50
      (fun _ _ => 100)).length ≠ ([(⟨"a", "n", 5⟩ : Album), ⟨"b", "n", 3⟩]).length) ∧
    ((deduplicate_by_name_and_add_popularity [⟨"a", "n", 5⟩, ⟨"b", "n", 3⟩] 50
        (fun _ _ => 100)).Sorted (fun a b => b.popularity ≤ a.popularity) ∧
      (∀ x y : Album,
        [x, y] <+ deduplicate_by_name_and_add_popularity [⟨"a", "n", 5⟩, ⟨"b", "n", 3⟩]
          50 (fun _ _ => 100) →
        x.popularity = y.popularity →
        [x.id, y.id] <+ ([(⟨"a", "n", 5⟩ : Album), ⟨"b", "n", 3⟩]).map Album.id)) :=
  ⟨by decide, by decide,
   engine_sort_stable_C4 [⟨"a", "n", 5⟩, ⟨"b", "n", 3⟩] 50 (fun _ _ => 100)
     (by decide) (by decide)⟩

/-- C5 counterexample: the engine is not idempotent for every scorer.  With
the asymmetric scorer that scores every name maximally against itself,
"nx" against "ny" at 100, "nz" against "nx" at 100, and everything else at
0, the first pass on `[x, y, z]` keeps `x` and `y` and drops `z`, returning
the re-sorted `[y, x]`; the second pass then processes `y` before `x` and
drops `x` (whose surviving matches now contain the already-kept `y`),
returning `[y]` — a different list. -/
theorem engine_idempotent_C5_cex :
    deduplicate_by_name_and_add_popularity
        (deduplicate_by_name_and_add_popularity
          [⟨"x", "nx", 5⟩, ⟨"y", "ny", 10⟩, ⟨"z", "nz", 1⟩] 50
          (fun q c => if q = c then 100 else if q = "nx" ∧ c = "ny" then 100
            else if q = "nz" ∧ c = "nx" then 100 else 0)) 50
        (fun q c => if q = c then 100 else if q = "nx" ∧ c = "ny" then 100
          else if q = "nz" ∧ c = "nx" then 100 else 0) ≠
      deduplicate_by_name_and_add_popularity
        [⟨"x", "nx", 5⟩, ⟨"y", "ny", 10⟩, ⟨"z", "nz", 1⟩] 50
        (fun q c => if q = c then 100 else if q = "nx" ∧ c = "ny" then 100
          else if q = "nz" ∧ c = "nx" then 100 else 0) := by decide

/-- C5 (amended): for inputs with unique identifiers and any symmetric
scorer whose self-scores strictly exceed the threshold (as the fuzzywuzzy
ratio scorers do: identical strings score the maximal 100), applying the
engine to its own output returns that output unchanged. -/
theorem engine_idempotent_C5 (albums : List Album) (threshold : Int) (scorer : Scorer)
    (hnd : (albums.map Album.id).Nodup)
    (hself : ∀ a ∈ albums, threshold < scorer a.name a.name)
    (hsymm : ∀ s1 s2 : String, scorer s1 s2 = scorer s2 s1) :
    deduplicate_by_name_and_add_popularity
        (deduplicate_by_name_and_add_popularity albums threshold scorer)
        threshold scorer =
      deduplicate_by_name_and_add_popularity albums threshold scorer := by
  by_cases hlen : (extractor_album_ids scorer threshold albums).length = albums.length
  · have hsame : deduplicate_by_name_and_add_popularity albums threshold scorer =
        albums := by
      simp only [deduplicate_by_name_and_add_popularity]
      rw [if_neg (not_not_intro hlen)]
    rw [hsame]
    exact hsame
  · have hout : deduplicate_by_name_and_add_popularity albums threshold scorer =
        List.insertionSort (fun a b => b.popularity ≤ a.popularity)
          ((extractor_album_ids scorer threshold albums).filterMap
            (album_id_dict_get albums)) := by
      simp only [deduplicate_by_name_and_add_popularity]
      rw [if_pos hlen]
    rw [hout]
    obtain ⟨hkept_sub, hkept_map⟩ := extracted_records scorer threshold albums hnd
    set kept := (extractor_album_ids scorer threshold albums).filterMap
      (album_id_dict_get albums) with hkeptdef
    set out := List.insertionSort (fun a b => b.popularity ≤ a.popularity) kept
      with houtdef
    have hperm : out ~ kept := List.perm_insertionSort _ kept
    have hmem_out : ∀ b ∈ out, b ∈ albums ∧
        b.id ∈ extractor_album_ids scorer threshold albums := by
      intro b hb
      have hb2 : b ∈ kept := hperm.subset hb
      obtain ⟨i, hiE, hsome⟩ := List.mem_filterMap.mp hb2
      obtain ⟨hmem, hid⟩ := album_id_dict_get_some albums i b hsome
      refine ⟨hmem, ?_⟩
      rw [hid]
      exact hiE
    have hfl : ∀ item ∈ out,
        (filtered_album_matches scorer threshold (dupe_album_id_names_dict out)
          item.name).length ≤ 1 := by
      intro item hitem
      apply filtered_length_le_one scorer threshold out item
      intro p hp hne
      obtain ⟨b, hb, hbid, hbname⟩ := dupe_dict_origin out p hp
      obtain ⟨hbam, hbE⟩ := hmem_out b hb
      obtain ⟨hitam, hitE⟩ := hmem_out item hitem
      have hbne : item.id ≠ b.id := fun he => hne (by rw [← hbid, he])
      rw [← hbname]
      exact kept_independent scorer threshold albums hnd hself hsymm item b hitam hbam
        hitE hbE hbne
    have hext2 := foldl_dedupe_all_kept scorer threshold (dupe_album_id_names_dict out)
      out hfl []
    simp only [deduplicate_by_name_and_add_popularity]
    rw [if_neg (not_not_intro (by simpa [extractor_album_ids] using hext2))]

/-- Witness for C5 (amended) at a concrete two-record input with the
constant maximal scorer. -/
theorem engine_idempotent_C5_witness :
    (([(⟨"a", "x", 1⟩ : Album), ⟨"b", "y", 2⟩].map Album.id).Nodup) ∧
    (∀ a ∈ [(⟨"a", "x", 1⟩ : Album), ⟨"b", "y", 2⟩], (50:Int) < 100) ∧
    (∀ _s1 _s2 : String, (100:Int) = 100) ∧
    deduplicate_by_name_and_add_popularity
        (deduplicate_by_name_and_add_popularity [⟨"a", "x", 1⟩, ⟨"b", "y", 2⟩] 50
          (fun _ _ => 100)) 50 (fun _ _ => 100) =
      deduplicate_by_name_and_add_popularity [⟨"a", "x", 1⟩, ⟨"b", "y", 2⟩] 50
        (fun _ _ => 100) :=
  ⟨by decide, fun a _ => by decide, fun _ _ => rfl,
   engine_idempotent_C5 [⟨"a", "x", 1⟩, ⟨"b", "y", 2⟩] 50 (fun _ _ => 100) (by decide)
     (fun a _ => by show (50:Int) < 100; decide) (fun _ _ => rfl)⟩
